import Mathlib

/-!
# Verification of the blackjack card/deck/shoe module (`src/cards.js`)

A shallow embedding of the module's data model and operations, followed by
theorems settling the specification's claims about it.

Modelling conventions:
* JS arrays of cards become `List Card`; the front of the array is the head
  of the list (`Array.prototype.shift` removes the head).
* A JS card `value` is either a number or an array of numbers, embedded as
  the sum type `CardValue`.
* JS numbers arising here are small integers (scores, counts) or the exact
  rational `0.75` (the cutoff); they are embedded as `Int` / `Nat` / `ℚ`.
* `Math.random`-driven choices are abstracted by an oracle function giving,
  for each loop index, the chosen random index; theorems quantify over all
  oracles.
* Methods that mutate `this` become functions from the receiver's state to
  its new state; functions that only read their argument are pure.
-/

namespace Blackjack

/-- A JS card value: a plain number, or an array of numbers (the ace). -/
inductive CardValue where
  | num : Int → CardValue
  | arr : List Int → CardValue
deriving DecidableEq

/-- The `Card` class: suit, rank, value, and the derived image file name
`(rank[0] + suit[0]).toUpperCase() + ".png"`. -/
structure Card where
  suit : String
  rank : String
  value : CardValue
  image_name : String
deriving DecidableEq

/-- The `Card` constructor: stores the three fields verbatim and derives
`image_name` as `(rank[0] + suit[0]).toUpperCase() + ".png"` (uppercasing
mapped over the characters, stated structurally so it computes). -/
def mkCard (suit rank : String) (value : CardValue) : Card :=
  { suit := suit, rank := rank, value := value,
    image_name :=
      String.mk ((rank.data.take 1 ++ suit.data.take 1).map Char.toUpper) ++ ".png" }

/-- The suit list iterated by `Deck.createDeck`. -/
def suits : List String := ["clubs", "diamonds", "hearts", "spades"]

/-- The rank list iterated by `Deck.createDeck`. -/
def ranks : List String :=
  ["ace", "2", "3", "4", "5", "6", "7", "8", "9", "10", "jack", "queen", "king"]

/-- The value list of `Deck.createDeck`, index-aligned with `ranks`.
The source stores the ace's dual value as the array `[1, 10]`. -/
def rankValues : List CardValue :=
  [CardValue.arr [1, 10], CardValue.num 2, CardValue.num 3, CardValue.num 4,
   CardValue.num 5, CardValue.num 6, CardValue.num 7, CardValue.num 8,
   CardValue.num 9, CardValue.num 10, CardValue.num 10, CardValue.num 10,
   CardValue.num 10]

/-- Source `Deck.createDeck` on a fresh deck: for each suit in order, push one card
per rank (rank and value taken at the same index). -/
def createDeck : List Card :=
  suits.flatMap (fun s => (ranks.zip rankValues).map (fun rv => mkCard s rv.1 rv.2))

/-- One iteration of the Fisher-Yates body: `temp = a[i]; a[i] = a[j];
a[j] = temp`.  Out-of-range indices leave the list unchanged (unreachable in
the source, where `0 ≤ j ≤ i < length`). -/
def listSwap {α : Type} (l : List α) (i j : Nat) : List α :=
  match l[i]?, l[j]? with
  | some a, some b => (l.set i b).set j a
  | _, _ => l

/-- The Fisher-Yates loop of `Deck.shuffleDeck`, counting `i` down to 1;
`rand i` models `Math.floor(Math.random() * (i + 1))` for that iteration. -/
def fyLoop (rand : Nat → Nat) : Nat → List Card → List Card
  | 0, cs => cs
  | Nat.succ k, cs => fyLoop rand k (listSwap cs (k + 1) (rand (k + 1)))

/-- Source `Deck.shuffleDeck`: Fisher-Yates over the whole list, `i` starting at
`length - 1`. -/
def shuffleDeck (rand : Nat → Nat) (cs : List Card) : List Card :=
  fyLoop rand (cs.length - 1) cs

/-- The `Shoe` class state: its card array, `numDecks`, and `cutoff`. -/
structure Shoe where
  cards : List Card
  numDecks : Nat
  cutoff : ℚ
deriving DecidableEq

/-- The `Shoe` constructor: empty card array, given `numDecks`, `cutoff`
defaulting to 0.75. -/
def mkShoe (numDecks : Nat) (cutoff : ℚ := 3/4) : Shoe :=
  { cards := [], numDecks := numDecks, cutoff := cutoff }

/-- Source `Shoe.addShuffledDeck`: build a deck, shuffle it with the given random
oracle, and append its cards to the shoe's array. -/
def Shoe.addShuffledDeck (shoe : Shoe) (rand : Nat → Nat) : Shoe :=
  { shoe with cards := shoe.cards ++ shuffleDeck rand createDeck }

/-- The loop of `Shoe.createShoe`: `addShuffledDeck` once per deck index
`0, 1, …, n-1`, each with its own random oracle `rands i`. -/
def createShoeLoop (rands : Nat → Nat → Nat) (shoe : Shoe) : Nat → Shoe
  | 0 => shoe
  | Nat.succ n => (createShoeLoop rands shoe n).addShuffledDeck (rands n)

/-- Source `Shoe.createShoe`: run the loop `numDecks` times. -/
def Shoe.createShoe (shoe : Shoe) (rands : Nat → Nat → Nat) : Shoe :=
  createShoeLoop rands shoe shoe.numDecks

/-- Source `Shoe.pastCutoff`: `percentRemaining = floor((cards.length /
(numDecks*52)) * 100)`, then `percentRemaining < cutoff`.  The source's
number division is embedded as exact rational division, per the conventions
above. -/
def Shoe.pastCutoff (shoe : Shoe) : Bool :=
  let numCards : ℚ := (shoe.numDecks : ℚ) * 52
  let remainingCards : ℚ := (shoe.cards.length : ℚ)
  let percentRemaining : ℤ := ⌊remainingCards / numCards * 100⌋
  decide ((percentRemaining : ℚ) < shoe.cutoff)

/-- The `num > 1` loop of `Shoe.deal`: `num` times, shift the front card of
the shoe onto the end of the result array.  The empty-shoe branch is
unreachable under the length guard. -/
def dealLoop : Nat → List Card → List Card → List Card × List Card
  | 0, acc, cs => (acc, cs)
  | Nat.succ _, acc, [] => (acc, [])
  | Nat.succ n, acc, c :: cs => dealLoop n (acc ++ [c]) cs

/-- Source `Shoe.deal(num)`: throw when fewer than `num` cards remain (before any
removal), return the single shifted card when `num = 1`, and otherwise the
array of the first `num` cards.  The returned `Shoe` is the receiver's state
after the call (unchanged when the error is thrown). -/
def Shoe.deal (shoe : Shoe) (num : Nat := 1) :
    Except String (Sum Card (List Card)) × Shoe :=
  if shoe.cards.length < num then
    (Except.error "Not enough cards to deal!", shoe)
  else if num = 1 then
    match shoe.cards with
    | [] => (Except.error "Not enough cards to deal!", shoe)
    | c :: rest => (Except.ok (Sum.inl c), { shoe with cards := rest })
  else
    let dealt := dealLoop num [] shoe.cards
    (Except.ok (Sum.inr dealt.1), { shoe with cards := dealt.2 })

/-- The first reduce of `evalHand`: count the cards whose rank is `"ace"`. -/
def numAces (hand : List Card) : Nat :=
  hand.foldl (fun total c => if c.rank = "ace" then total + 1 else total) 0

/-- The second reduce of `evalHand`: sum each card's value, an array value
contributing the sum of its elements. -/
def rawScore (hand : List Card) : Int :=
  hand.foldl
    (fun total c =>
      match c.value with
      | CardValue.arr l => total + l.foldl (· + ·) 0
      | CardValue.num n => total + n) 0

/-- The while loop of `evalHand`: while `score > 21 && numAces`, subtract 10
and decrement the ace count. -/
def adjust : Int → Nat → Int
  | score, 0 => score
  | score, Nat.succ k => if score > 21 then adjust (score - 10) k else score

/-- Source `evalHand`: raw score, then the ace adjustment loop. -/
def evalHand (hand : List Card) : Int :=
  adjust (rawScore hand) (numAces hand)

/-- Source `scoreHand`: returns `evalHand(hand)`. -/
def scoreHand (hand : List Card) : Int :=
  evalHand hand

/-- Source `isBust`: `evalHand(hand) > 21`. -/
def isBust (hand : List Card) : Bool :=
  decide (evalHand hand > 21)

/-- Source `belowHard17`: `evalHand(hand) < 17`. -/
def belowHard17 (hand : List Card) : Bool :=
  decide (evalHand hand < 17)

/-!
## State-passing views of the hand evaluators

The evaluators receive the hand array by reference.  To state that they do
not mutate it, each is re-expressed as a function from the hand to the pair
(returned value, hand array as left by the call); `jsReduce` models
`Array.prototype.reduce` with a callback that reads but never writes the
array, which is the only array operation the evaluators perform.
-/

/-- JS `Array.prototype.reduce` with a non-writing callback: the accumulator,
paired with the array as the call leaves it. -/
def jsReduce {β : Type} (f : β → Card → β) (init : β) (arr : List Card) :
    β × List Card :=
  (arr.foldl f init, arr)

/-- Source `evalHand` as a state-passing function on its hand argument. -/
def evalHandSt (hand : List Card) : Int × List Card :=
  let r1 := jsReduce (fun total c => if c.rank = "ace" then total + 1 else total)
    (0 : Nat) hand
  let r2 := jsReduce
    (fun total c =>
      match c.value with
      | CardValue.arr l => total + l.foldl (· + ·) 0
      | CardValue.num n => total + n) (0 : Int) r1.2
  (adjust r2.1 r1.1, r2.2)

/-- Source `scoreHand` as a state-passing function on its hand argument. -/
def scoreHandSt (hand : List Card) : Int × List Card :=
  let r := evalHandSt hand
  (r.1, r.2)

/-- Source `isBust` as a state-passing function on its hand argument. -/
def isBustSt (hand : List Card) : Bool × List Card :=
  let r := evalHandSt hand
  (decide (r.1 > 21), r.2)

/-- Source `belowHard17` as a state-passing function on its hand argument. -/
def belowHard17St (hand : List Card) : Bool × List Card :=
  let r := evalHandSt hand
  (decide (r.1 < 17), r.2)

/-!
## Specification-side definitions

These follow the words of the specification's claims, not the source, and
exist only to be compared with the source-derived definitions above.
-/

/-- Modelled from the spec, for the blackjack-value refinement claim: the
totals a single card can contribute — an ace counts as 1 or 11, any other
card counts as its stored numeric value.  (The array fallback is
unreachable for canonically built cards, where only aces carry arrays.) -/
def cardChoices (c : Card) : List Int :=
  if c.rank = "ace" then [1, 11]
  else
    match c.value with
    | CardValue.num n => [n]
    | CardValue.arr l => [l.foldl (· + ·) 0]

/-- Modelled from the spec: every total obtainable for a hand by choosing
one contribution per card. -/
def handTotals : List Card → List Int
  | [] => [0]
  | c :: rest =>
      (handTotals rest).flatMap (fun t => (cardChoices c).map (fun v => t + v))

/-- Largest element of a list of integers (0 for the empty list, which
never arises: `handTotals` is always nonempty). -/
def listMax : List Int → Int
  | [] => 0
  | x :: xs => xs.foldl max x

/-- Smallest element of a list of integers (0 for the empty list). -/
def listMin : List Int → Int
  | [] => 0
  | x :: xs => xs.foldl min x

/-- Modelled from the spec: the standard blackjack value of a hand — the
largest obtainable total not exceeding 21, or the smallest obtainable total
when every choice exceeds 21. -/
def blackjackValue (hand : List Card) : Int :=
  let ts := handTotals hand
  let ok := ts.filter (fun t => decide (t ≤ 21))
  if ok = [] then listMin ts else listMax ok

/-- Modelled from the spec (amended to the source's ace value): the 52
canonical cards listed explicitly, suit-major and rank-minor, with values
ace ↦ [1, 10], pip cards ↦ their number, and ten/jack/queen/king ↦ 10. -/
def specDeck : List Card :=
  [mkCard "clubs" "ace" (CardValue.arr [1, 10]),
   mkCard "clubs" "2" (CardValue.num 2),
   mkCard "clubs" "3" (CardValue.num 3),
   mkCard "clubs" "4" (CardValue.num 4),
   mkCard "clubs" "5" (CardValue.num 5),
   mkCard "clubs" "6" (CardValue.num 6),
   mkCard "clubs" "7" (CardValue.num 7),
   mkCard "clubs" "8" (CardValue.num 8),
   mkCard "clubs" "9" (CardValue.num 9),
   mkCard "clubs" "10" (CardValue.num 10),
   mkCard "clubs" "jack" (CardValue.num 10),
   mkCard "clubs" "queen" (CardValue.num 10),
   mkCard "clubs" "king" (CardValue.num 10),
   mkCard "diamonds" "ace" (CardValue.arr [1, 10]),
   mkCard "diamonds" "2" (CardValue.num 2),
   mkCard "diamonds" "3" (CardValue.num 3),
   mkCard "diamonds" "4" (CardValue.num 4),
   mkCard "diamonds" "5" (CardValue.num 5),
   mkCard "diamonds" "6" (CardValue.num 6),
   mkCard "diamonds" "7" (CardValue.num 7),
   mkCard "diamonds" "8" (CardValue.num 8),
   mkCard "diamonds" "9" (CardValue.num 9),
   mkCard "diamonds" "10" (CardValue.num 10),
   mkCard "diamonds" "jack" (CardValue.num 10),
   mkCard "diamonds" "queen" (CardValue.num 10),
   mkCard "diamonds" "king" (CardValue.num 10),
   mkCard "hearts" "ace" (CardValue.arr [1, 10]),
   mkCard "hearts" "2" (CardValue.num 2),
   mkCard "hearts" "3" (CardValue.num 3),
   mkCard "hearts" "4" (CardValue.num 4),
   mkCard "hearts" "5" (CardValue.num 5),
   mkCard "hearts" "6" (CardValue.num 6),
   mkCard "hearts" "7" (CardValue.num 7),
   mkCard "hearts" "8" (CardValue.num 8),
   mkCard "hearts" "9" (CardValue.num 9),
   mkCard "hearts" "10" (CardValue.num 10),
   mkCard "hearts" "jack" (CardValue.num 10),
   mkCard "hearts" "queen" (CardValue.num 10),
   mkCard "hearts" "king" (CardValue.num 10),
   mkCard "spades" "ace" (CardValue.arr [1, 10]),
   mkCard "spades" "2" (CardValue.num 2),
   mkCard "spades" "3" (CardValue.num 3),
   mkCard "spades" "4" (CardValue.num 4),
   mkCard "spades" "5" (CardValue.num 5),
   mkCard "spades" "6" (CardValue.num 6),
   mkCard "spades" "7" (CardValue.num 7),
   mkCard "spades" "8" (CardValue.num 8),
   mkCard "spades" "9" (CardValue.num 9),
   mkCard "spades" "10" (CardValue.num 10),
   mkCard "spades" "jack" (CardValue.num 10),
   mkCard "spades" "queen" (CardValue.num 10),
   mkCard "spades" "king" (CardValue.num 10)]

/-!
## Analysis helpers

Abbreviations used only inside proofs.
-/

/-- The contribution of one card to `rawScore` (sum of the array for an
array value, the number itself otherwise). -/
def cardContrib (c : Card) : Int :=
  match c.value with
  | CardValue.arr l => l.foldl (· + ·) 0
  | CardValue.num n => n

/-- 1 for an ace, 0 otherwise. -/
def aceInd (c : Card) : Nat :=
  if c.rank = "ace" then 1 else 0

/-- A card's low contribution: 1 for an ace, the stored value otherwise. -/
def cardLow (c : Card) : Int :=
  if c.rank = "ace" then 1 else cardContrib c

/-- Sum of the low contributions of a hand. -/
def lowSum (hand : List Card) : Int :=
  (hand.map cardLow).sum

/-- Shape of a card built by `createDeck`: either an ace carrying the array
`[1, 10]`, or a non-ace carrying a plain number. -/
def isCanonical (c : Card) : Bool :=
  if c.rank = "ace" then decide (c.value = CardValue.arr [1, 10])
  else
    match c.value with
    | CardValue.num _ => true
    | CardValue.arr _ => false

/-!
## Lemmas about shuffling, dealing, and shoe construction
-/

/-- A Fisher-Yates swap step never changes the multiset of list elements. -/
lemma listSwap_perm {α : Type} [DecidableEq α] (l : List α) (i j : Nat) :
    (listSwap l i j).Perm l := by
  unfold listSwap
  split
  · next a b hia hjb =>
    obtain ⟨hi, hA⟩ := List.getElem?_eq_some_iff.mp hia
    obtain ⟨hj, hB⟩ := List.getElem?_eq_some_iff.mp hjb
    have hj2 : j < (l.set i b).length := by simpa using hj
    rw [List.perm_iff_count]
    intro x
    rw [List.count_set a x (l.set i b) j hj2, List.count_set b x l i hi,
      List.getElem_set, hA]
    have hax : (if a == x then 1 else 0) ≤ l.count x := by
      split
      · next hax =>
        have : a = x := by simpa using hax
        subst this
        exact List.count_pos_iff.mpr (hA ▸ List.getElem_mem hi)
      · exact Nat.zero_le _
    rcases eq_or_ne i j with rfl | hij
    · rw [if_pos rfl]
      omega
    · rw [if_neg hij, hB]
      omega
  · exact List.Perm.refl l

/-- The Fisher-Yates loop never changes the multiset of list elements. -/
lemma fyLoop_perm (rand : Nat → Nat) :
    ∀ (k : Nat) (cs : List Card), (fyLoop rand k cs).Perm cs
  | 0, cs => List.Perm.refl cs
  | Nat.succ k, cs =>
      (fyLoop_perm rand k (listSwap cs (k + 1) (rand (k + 1)))).trans
        (listSwap_perm cs (k + 1) (rand (k + 1)))

/-- Function `shuffleDeck` never changes the multiset of cards. -/
lemma shuffleDeck_perm (rand : Nat → Nat) (cs : List Card) :
    (shuffleDeck rand cs).Perm cs :=
  fyLoop_perm rand (cs.length - 1) cs

/-- The dealing loop moves exactly the first `n` cards, in order. -/
lemma dealLoop_spec : ∀ (n : Nat) (acc cs : List Card), n ≤ cs.length →
    dealLoop n acc cs = (acc ++ cs.take n, cs.drop n)
  | 0, acc, cs, _ => by simp [dealLoop]
  | Nat.succ n, acc, [], h => by simp at h
  | Nat.succ n, acc, c :: cs, h => by
    rw [dealLoop, dealLoop_spec n (acc ++ [c]) cs (by simpa using h)]
    simp

/-- After `n` iterations, the shoe-construction loop has appended `n`
independently shuffled deck blocks. -/
lemma createShoeLoop_cards (rands : Nat → Nat → Nat) (shoe : Shoe) :
    ∀ n : Nat, (createShoeLoop rands shoe n).cards =
      shoe.cards ++
        ((List.range n).map (fun i => shuffleDeck (rands i) createDeck)).flatten
  | 0 => by simp [createShoeLoop]
  | Nat.succ n => by
    rw [createShoeLoop, Shoe.addShuffledDeck, createShoeLoop_cards rands shoe n,
      List.range_succ]
    simp

/-- A freshly built deck has 52 cards. -/
lemma createDeck_length : createDeck.length = 52 := by decide

/-!
## Lemmas about the hand evaluators
-/

/-- The score-summing reduce, as a sum over per-card contributions. -/
lemma foldl_add_contrib : ∀ (l : List Card) (x : Int),
    l.foldl
      (fun total c =>
        match c.value with
        | CardValue.arr v => total + v.foldl (· + ·) 0
        | CardValue.num n => total + n) x = x + (l.map cardContrib).sum
  | [], x => by simp
  | c :: l, x => by
    rw [List.foldl_cons, foldl_add_contrib l]
    cases hv : c.value <;> simp [cardContrib, hv] <;> ring

/-- Function `rawScore` is the sum of the per-card contributions. -/
lemma rawScore_eq (hand : List Card) :
    rawScore hand = (hand.map cardContrib).sum := by
  simpa [rawScore] using foldl_add_contrib hand 0

/-- The ace-counting reduce, as a sum over per-card indicators. -/
lemma foldl_count_aces : ∀ (l : List Card) (x : Nat),
    l.foldl (fun total c => if c.rank = "ace" then total + 1 else total) x
      = x + (l.map aceInd).sum
  | [], x => by simp
  | c :: l, x => by
    rw [List.foldl_cons, foldl_count_aces l]
    by_cases h : c.rank = "ace"
    · simp [aceInd, h]
      omega
    · simp [aceInd, h]

/-- Function `numAces` is the sum of the per-card ace indicators. -/
lemma numAces_eq (hand : List Card) :
    numAces hand = (hand.map aceInd).sum := by
  simpa [numAces] using foldl_count_aces hand 0

/-- Unfolding `numAces` on a cons. -/
lemma numAces_cons (c : Card) (hand : List Card) :
    numAces (c :: hand) = aceInd c + numAces hand := by
  simp [numAces_eq]

/-- Unfolding `lowSum` on a cons. -/
lemma lowSum_cons (c : Card) (hand : List Card) :
    lowSum (c :: hand) = cardLow c + lowSum hand := by
  simp [lowSum]

/-- A canonically shaped card contributes its low value plus 10 per ace. -/
lemma contrib_of_canonical {c : Card} (h : isCanonical c = true) :
    cardContrib c = cardLow c + 10 * (aceInd c : Int) := by
  unfold isCanonical at h
  by_cases hr : c.rank = "ace"
  · rw [if_pos hr] at h
    have hv : c.value = CardValue.arr [1, 10] := by simpa using h
    simp [cardContrib, cardLow, aceInd, hr, hv]
  · rw [if_neg hr] at h
    cases hv : c.value with
    | num n => simp [cardContrib, cardLow, aceInd, hr, hv]
    | arr v => rw [hv] at h; simp at h

/-- For a hand of canonically shaped cards, the raw score is the low sum
plus 10 per ace. -/
lemma rawScore_canonical : ∀ {hand : List Card},
    (∀ c ∈ hand, isCanonical c = true) →
    rawScore hand = lowSum hand + 10 * (numAces hand : Int)
  | [], _ => by simp [rawScore, lowSum, numAces]
  | c :: hand, h => by
    have hc := h c (List.mem_cons_self c hand)
    have ih := rawScore_canonical (fun d hd => h d (List.mem_cons_of_mem c hd))
    rw [rawScore_eq] at ih ⊢
    simp only [List.map_cons, List.sum_cons, ih, lowSum_cons, numAces_cons,
      contrib_of_canonical hc]
    push_cast
    ring

/-- The adjustment loop when even the all-low total busts: it subtracts 10
for every ace and lands back on the low sum. -/
lemma adjust_of_gt {b : Int} (hb : b > 21) :
    ∀ a : Nat, adjust (b + 10 * a) a = b
  | 0 => by simp [adjust]
  | Nat.succ a => by
    have h1 : b + 10 * ((a : Int) + 1) > 21 := by omega
    have h2 : b + 10 * ((a : Int) + 1) - 10 = b + 10 * a := by ring
    rw [adjust]
    push_cast
    rw [if_pos h1, h2, adjust_of_gt hb a]

/-- The adjustment loop when the all-low total does not bust: it returns
the greatest reachable total not exceeding 21. -/
lemma adjust_of_le {b : Int} (hb : b ≤ 21) :
    ∀ a : Nat, ∃ m : Nat, m ≤ a ∧ adjust (b + 10 * a) a = b + 10 * m ∧
      b + 10 * m ≤ 21 ∧ ∀ m' : Nat, m' ≤ a → b + 10 * m' ≤ 21 → m' ≤ m
  | 0 => ⟨0, Nat.le_refl 0, by simp [adjust], by simpa using hb,
      fun m' h _ => h⟩
  | Nat.succ a => by
    by_cases h : b + 10 * ((a : Int) + 1) > 21
    · obtain ⟨m, hm, heq, hle, hmax⟩ := adjust_of_le hb a
      refine ⟨m, Nat.le_succ_of_le hm, ?_, hle, ?_⟩
      · have h2 : b + 10 * ((a : Int) + 1) - 10 = b + 10 * a := by ring
        rw [adjust]
        push_cast
        rw [if_pos h, h2, heq]
      · intro m' h1 h2
        by_cases h3 : m' ≤ a
        · exact hmax m' h3 h2
        · exfalso
          have h4 : m' = a + 1 := by omega
          subst h4
          push_cast at h2
          omega
    · refine ⟨a + 1, Nat.le_refl _, ?_, by push_cast at h ⊢; omega,
        fun m' h1 _ => h1⟩
      rw [adjust]
      push_cast
      rw [if_neg h]

/-!
## Lemmas about the spec-side blackjack value
-/

/-- For canonically shaped cards the obtainable totals of a hand are
exactly the low sum plus 10 for each ace counted high. -/
lemma mem_handTotals_iff : ∀ {hand : List Card},
    (∀ c ∈ hand, isCanonical c = true) → ∀ {t : Int},
    (t ∈ handTotals hand ↔ ∃ m : Nat, m ≤ numAces hand ∧ t = lowSum hand + 10 * m)
  | [], _, t => by
    constructor
    · intro ht
      have ht0 : t = 0 := by simpa [handTotals] using ht
      exact ⟨0, Nat.le_refl 0, by simp [ht0, lowSum]⟩
    · rintro ⟨m, hm, rfl⟩
      have hm0 : m = 0 := Nat.le_zero.mp (by simpa [numAces] using hm)
      simp [handTotals, lowSum, hm0]
  | c :: hand, h, t => by
    have hc := h c (List.mem_cons_self c hand)
    have ih := fun {t : Int} =>
      mem_handTotals_iff (fun d hd => h d (List.mem_cons_of_mem c hd)) (t := t)
    rw [handTotals]
    simp only [List.mem_flatMap, List.mem_map]
    unfold isCanonical at hc
    by_cases hr : c.rank = "ace"
    · rw [if_pos hr] at hc
      have hlow : cardLow c = 1 := by simp [cardLow, hr]
      have hace : aceInd c = 1 := by simp [aceInd, hr]
      have hch : cardChoices c = [1, 11] := by simp [cardChoices, hr]
      rw [numAces_cons, lowSum_cons, hlow, hace, hch]
      constructor
      · rintro ⟨t₀, ht₀, v, hv, rfl⟩
        obtain ⟨m, hm, rfl⟩ := ih.mp ht₀
        rcases List.mem_cons.mp hv with rfl | hv
        · exact ⟨m, by omega, by ring⟩
        · rcases List.mem_cons.mp hv with rfl | hv
          · exact ⟨m + 1, by omega, by push_cast; ring⟩
          · simp at hv
      · rintro ⟨m, hm, rfl⟩
        by_cases h1 : m ≤ numAces hand
        · refine ⟨lowSum hand + 10 * m, ih.mpr ⟨m, h1, rfl⟩, 1, by simp, by ring⟩
        · have h2 : m = numAces hand + 1 := by omega
          subst h2
          refine ⟨lowSum hand + 10 * numAces hand,
            ih.mpr ⟨numAces hand, Nat.le_refl _, rfl⟩, 11, by simp, ?_⟩
          push_cast
          ring
    · rw [if_neg hr] at hc
      have hace : aceInd c = 0 := by simp [aceInd, hr]
      have hch : cardChoices c = [cardLow c] := by
        cases hv : c.value with
        | num n => simp [cardChoices, cardLow, cardContrib, hr, hv]
        | arr v => rw [hv] at hc; simp at hc
      rw [numAces_cons, lowSum_cons, hace, hch]
      constructor
      · rintro ⟨t₀, ht₀, v, hv, rfl⟩
        obtain ⟨m, hm, rfl⟩ := ih.mp ht₀
        rcases List.mem_cons.mp hv with rfl | hv
        · exact ⟨m, by omega, by ring⟩
        · simp at hv
      · rintro ⟨m, hm, rfl⟩
        refine ⟨lowSum hand + 10 * m, ih.mpr ⟨m, by omega, rfl⟩, cardLow c,
          by simp, by ring⟩

/-- A fold of `max` is at least its starting value. -/
lemma self_le_foldl_max : ∀ (l : List Int) (x : Int), x ≤ l.foldl max x
  | [], x => le_refl x
  | y :: l, x => le_trans (le_max_left x y) (self_le_foldl_max l (max x y))

/-- A fold of `max` bounds every list element. -/
lemma mem_le_foldl_max : ∀ (l : List Int) (x y : Int), y ∈ l → y ≤ l.foldl max x
  | [], _, y, h => absurd h (List.not_mem_nil y)
  | z :: l, x, y, h => by
    rcases List.mem_cons.mp h with rfl | h
    · exact le_trans (le_max_right x y) (self_le_foldl_max l (max x y))
    · exact mem_le_foldl_max l (max x z) y h

/-- A fold of `max` is the starting value or some list element. -/
lemma foldl_max_mem : ∀ (l : List Int) (x : Int),
    l.foldl max x = x ∨ l.foldl max x ∈ l
  | [], _ => Or.inl rfl
  | y :: l, x => by
    rcases foldl_max_mem l (max x y) with h | h
    · rcases max_cases x y with ⟨h1, _⟩ | ⟨h1, _⟩
      · exact Or.inl (by rw [List.foldl_cons, h, h1])
      · refine Or.inr ?_
        rw [List.foldl_cons, h, h1]
        exact List.mem_cons_self y l
    · exact Or.inr (List.mem_cons_of_mem y h)

/-- A fold of `min` is at most its starting value. -/
lemma foldl_min_le_self : ∀ (l : List Int) (x : Int), l.foldl min x ≤ x
  | [], x => le_refl x
  | y :: l, x => le_trans (foldl_min_le_self l (min x y)) (min_le_left x y)

/-- A fold of `min` is below every list element. -/
lemma foldl_min_le_mem : ∀ (l : List Int) (x y : Int), y ∈ l → l.foldl min x ≤ y
  | [], _, y, h => absurd h (List.not_mem_nil y)
  | z :: l, x, y, h => by
    rcases List.mem_cons.mp h with rfl | h
    · exact le_trans (foldl_min_le_self l (min x y)) (min_le_right x y)
    · exact foldl_min_le_mem l (min x z) y h

/-- A fold of `min` is the starting value or some list element. -/
lemma foldl_min_mem : ∀ (l : List Int) (x : Int),
    l.foldl min x = x ∨ l.foldl min x ∈ l
  | [], _ => Or.inl rfl
  | y :: l, x => by
    rcases foldl_min_mem l (min x y) with h | h
    · rcases min_cases x y with ⟨h1, _⟩ | ⟨h1, _⟩
      · exact Or.inl (by rw [List.foldl_cons, h, h1])
      · refine Or.inr ?_
        rw [List.foldl_cons, h, h1]
        exact List.mem_cons_self y l
    · exact Or.inr (List.mem_cons_of_mem y h)

/-- Function `listMax` of a nonempty list is an element of it. -/
lemma listMax_mem : ∀ {l : List Int}, l ≠ [] → listMax l ∈ l
  | [], h => absurd rfl h
  | x :: l, _ => by
    rcases foldl_max_mem l x with h | h
    · rw [listMax, h]
      exact List.mem_cons_self x l
    · exact List.mem_cons_of_mem x h

/-- Function `listMax` bounds every element. -/
lemma le_listMax : ∀ {l : List Int} {y : Int}, y ∈ l → y ≤ listMax l
  | [], y, h => absurd h (List.not_mem_nil y)
  | x :: l, y, h => by
    rcases List.mem_cons.mp h with rfl | h
    · exact self_le_foldl_max l y
    · exact mem_le_foldl_max l x y h

/-- Function `listMin` of a nonempty list is an element of it. -/
lemma listMin_mem : ∀ {l : List Int}, l ≠ [] → listMin l ∈ l
  | [], h => absurd rfl h
  | x :: l, _ => by
    rcases foldl_min_mem l x with h | h
    · rw [listMin, h]
      exact List.mem_cons_self x l
    · exact List.mem_cons_of_mem x h

/-- Function `listMin` is below every element. -/
lemma listMin_le : ∀ {l : List Int} {y : Int}, y ∈ l → listMin l ≤ y
  | [], y, h => absurd h (List.not_mem_nil y)
  | x :: l, y, h => by
    rcases List.mem_cons.mp h with rfl | h
    · exact foldl_min_le_self l y
    · exact foldl_min_le_mem l x y h

/-- The bridge: on hands of canonically shaped cards, `evalHand` computes
the standard blackjack value. -/
lemma evalHand_eq_blackjackValue {hand : List Card}
    (h : ∀ c ∈ hand, isCanonical c = true) :
    evalHand hand = blackjackValue hand := by
  have hraw := rawScore_canonical h
  have htot := fun {t : Int} => mem_handTotals_iff h (t := t)
  set a := numAces hand with ha
  set b := lowSum hand with hbdef
  have heval : evalHand hand = adjust (b + 10 * a) a := by rw [evalHand, hraw]
  rw [blackjackValue]
  by_cases hb : b ≤ 21
  · obtain ⟨m, hm, heq, hle, hmax⟩ := adjust_of_le hb a
    have hmem : b + 10 * (m : Int) ∈ handTotals hand := htot.mpr ⟨m, hm, rfl⟩
    have hmemok : b + 10 * (m : Int) ∈
        (handTotals hand).filter (fun t => decide (t ≤ 21)) := by
      rw [List.mem_filter]
      exact ⟨hmem, by simpa using hle⟩
    have hne : (handTotals hand).filter (fun t => decide (t ≤ 21)) ≠ [] := by
      intro hnil
      rw [hnil] at hmemok
      exact absurd hmemok (List.not_mem_nil _)
    rw [if_neg hne, heval, heq]
    apply le_antisymm
    · exact le_listMax hmemok
    · have hmaxmem := listMax_mem hne
      rw [List.mem_filter] at hmaxmem
      obtain ⟨hmem1, hle1⟩ := hmaxmem
      obtain ⟨m', hm', hEq'⟩ := htot.mp hmem1
      rw [hEq']
      have hmm : m' ≤ m := hmax m' hm' (by rw [← hEq']; simpa using hle1)
      have : (m' : Int) ≤ m := by exact_mod_cast hmm
      omega
  · push_neg at hb
    have hfilter : (handTotals hand).filter (fun t => decide (t ≤ 21)) = [] := by
      rw [List.filter_eq_nil_iff]
      intro t ht
      obtain ⟨m, hm, rfl⟩ := htot.mp ht
      simp only [decide_eq_true_eq]
      have : (0 : Int) ≤ 10 * (m : Int) := by positivity
      omega
    rw [if_pos hfilter, heval, adjust_of_gt hb a]
    have hbmem : b ∈ handTotals hand :=
      htot.mpr ⟨0, Nat.zero_le _, by simp⟩
    have hne : handTotals hand ≠ [] := by
      intro hnil
      rw [hnil] at hbmem
      exact absurd hbmem (List.not_mem_nil _)
    apply le_antisymm
    · obtain ⟨m, hm, hEq⟩ := htot.mp (listMin_mem hne)
      rw [hEq]
      have : (0 : Int) ≤ 10 * (m : Int) := by positivity
      omega
    · exact listMin_le hbmem

/-- Every card a fresh deck builds is canonically shaped. -/
lemma createDeck_canonical : ∀ c ∈ createDeck, isCanonical c = true := by
  decide

/-!
## Claim theorems
-/

set_option maxRecDepth 10000

/-- C1, counterexample: for the hand holding the deck's first card — the
ace of clubs — the raw sum contributes both elements of its stored dual
value `[1, 10]`, which is 11, not the claimed 12, and `evalHand` returns
11, not the claimed 12. -/
theorem c1_single_ace_counterexample :
    createDeck.take 1 = [mkCard "clubs" "ace" (CardValue.arr [1, 10])] ∧
    rawScore (createDeck.take 1) = 11 ∧
    evalHand (createDeck.take 1) = 11 ∧
    ¬ evalHand (createDeck.take 1) = 12 := by
  refine ⟨by decide, by decide, by decide, by decide⟩

/-- C1, amended: for a hand consisting of a single ace card as built by
the deck, `evalHand`'s raw sum step contributes both elements of the ace's
dual value `[1, 10]`, so the raw score is 11; no adjustment fires (11 is
not > 21), and `evalHand` returns 11. -/
theorem c1_single_ace_amended (c : Card) (hc : c ∈ createDeck)
    (hace : c.rank = "ace") :
    rawScore [c] = 11 ∧ evalHand [c] = rawScore [c] ∧ evalHand [c] = 11 := by
  have hcan := createDeck_canonical c hc
  unfold isCanonical at hcan
  rw [if_pos hace] at hcan
  have hv : c.value = CardValue.arr [1, 10] := by simpa using hcan
  refine ⟨?_, ?_, ?_⟩ <;>
    simp [rawScore, evalHand, numAces, adjust, hv, hace]

/-- Witness for C1 (amended), at the ace of clubs. -/
theorem c1_single_ace_amended_witness :
    rawScore [mkCard "clubs" "ace" (CardValue.arr [1, 10])] = 11 ∧
    evalHand [mkCard "clubs" "ace" (CardValue.arr [1, 10])] =
      rawScore [mkCard "clubs" "ace" (CardValue.arr [1, 10])] ∧
    evalHand [mkCard "clubs" "ace" (CardValue.arr [1, 10])] = 11 :=
  c1_single_ace_amended (mkCard "clubs" "ace" (CardValue.arr [1, 10]))
    (by decide) (by decide)

/-- C2, counterexample: the deck's first card is the ace of clubs carrying
the value array `[1, 10]`, not the claimed pair `{1, 11}` — the element 11
does not occur in it. -/
theorem c2_deck_values_counterexample :
    createDeck.head? = some (mkCard "clubs" "ace" (CardValue.arr [1, 10])) ∧
    (mkCard "clubs" "ace" (CardValue.arr [1, 10])).value ≠
      CardValue.arr [1, 11] ∧
    ¬ (11 : Int) ∈ [(1 : Int), 10] := by
  refine ⟨by decide, by decide, by decide⟩

/-- C2, amended: after `createDeck()` on a fresh deck, the deck contains
exactly 52 distinct cards, one per (suit, rank) pair, in suit-major
rank-minor order over suits clubs, diamonds, hearts, spades and ranks ace,
2, …, 10, jack, queen, king, with per-rank values `[1, 10]`, 2, 3, …, 10,
10, 10, 10 respectively (the ace dual-valued as the pair `{1, 10}`). -/
theorem c2_deck_contents_amended :
    createDeck = specDeck ∧ createDeck.length = 52 ∧ createDeck.Nodup := by
  refine ⟨by decide, by decide, by decide⟩

/-- C3: `deal(num)` raises the single InsufficientCards error exactly when
the shoe holds fewer than `num` cards, leaving the card sequence completely
unchanged; it succeeds exactly when `cards.length ≥ num`. -/
theorem c3_deal_insufficient (shoe : Shoe) (num : Nat) :
    (shoe.cards.length < num →
      shoe.deal num = (Except.error "Not enough cards to deal!", shoe)) ∧
    ((shoe.deal num).1.isOk = true ↔ num ≤ shoe.cards.length) := by
  constructor
  · intro h
    simp [Shoe.deal, h]
  · constructor
    · intro h
      by_contra hlt
      push_neg at hlt
      rw [Shoe.deal, if_pos hlt] at h
      simp [Except.isOk, Except.toBool] at h
    · intro h
      have hnl : ¬ shoe.cards.length < num := by omega
      rw [Shoe.deal, if_neg hnl]
      by_cases h1 : num = 1
      · subst h1
        cases hc : shoe.cards with
        | nil => rw [hc] at h; simp at h
        | cons c rest => simp [hc, Except.isOk, Except.toBool]
      · simp [h1, Except.isOk, Except.toBool]

/-- Witness for C3: dealing 3 cards from an empty one-deck shoe fails with
the error and leaves the shoe unchanged. -/
theorem c3_deal_insufficient_witness :
    (mkShoe 1).deal 3 = (Except.error "Not enough cards to deal!", mkShoe 1) ∧
    ¬ ((mkShoe 1).deal 3).1.isOk = true := by
  have h := c3_deal_insufficient (mkShoe 1) 3
  refine ⟨h.1 (by decide), ?_⟩
  rw [h.2]
  decide

/-- C4: with at least `num` cards in the shoe, `deal(1)` removes and
returns the single front card (not wrapped in a sequence) leaving the tail,
and for `num > 1` `deal(num)` removes and returns exactly the first `num`
cards in front-to-back order, leaving the remaining cards in their prior
relative order. -/
theorem c4_deal_front (shoe : Shoe) (num : Nat)
    (h : num ≤ shoe.cards.length) :
    (num = 1 → ∃ c rest, shoe.cards = c :: rest ∧
      shoe.deal num = (Except.ok (Sum.inl c), { shoe with cards := rest })) ∧
    (1 < num →
      shoe.deal num = (Except.ok (Sum.inr (shoe.cards.take num)),
        { shoe with cards := shoe.cards.drop num })) := by
  have hnl : ¬ shoe.cards.length < num := by omega
  constructor
  · rintro rfl
    obtain ⟨c, rest, hc⟩ : ∃ c rest, shoe.cards = c :: rest := by
      cases hc : shoe.cards with
      | nil => rw [hc] at h; simp at h
      | cons c rest => exact ⟨c, rest, rfl⟩
    refine ⟨c, rest, hc, ?_⟩
    simp [Shoe.deal, hnl, hc]
  · intro h1
    have h2 : ¬ num = 1 := by omega
    rw [Shoe.deal, if_neg hnl, if_neg h2, dealLoop_spec num [] shoe.cards h]
    simp

/-- Witness for C4: dealing 2 from a 3-card shoe returns the first two
cards in order and leaves the third. -/
theorem c4_deal_front_witness :
    ({ cards := createDeck.take 3, numDecks := 1, cutoff := 3/4 } : Shoe).deal 2 =
      (Except.ok (Sum.inr ((createDeck.take 3).take 2)),
        { cards := (createDeck.take 3).drop 2, numDecks := 1, cutoff := 3/4 }) := by
  have h := (c4_deal_front
    { cards := createDeck.take 3, numDecks := 1, cutoff := 3/4 } 2
    (by decide)).2 (by decide)
  simpa using h

/-- C5: for every positive `numDecks = k`, every cutoff, and every outcome
of the random shuffles, `createShoe()` on a freshly constructed shoe leaves
exactly `52 * k` cards, arranged as `k` contiguous 52-card blocks, each a
permutation of one canonical deck. -/
theorem c5_createShoe_blocks (rands : Nat → Nat → Nat) (k : Nat) (cutoff : ℚ)
    (_hk : 0 < k) :
    ((mkShoe k cutoff).createShoe rands).cards.length = 52 * k ∧
    ∃ blocks : List (List Card), blocks.length = k ∧
      (∀ b ∈ blocks, b.Perm createDeck) ∧
      ((mkShoe k cutoff).createShoe rands).cards = blocks.flatten := by
  have hcards : ((mkShoe k cutoff).createShoe rands).cards =
      ((List.range k).map (fun i => shuffleDeck (rands i) createDeck)).flatten := by
    rw [Shoe.createShoe]
    simpa [mkShoe] using createShoeLoop_cards rands (mkShoe k cutoff) k
  have hlens : ((List.range k).map
      (fun i => shuffleDeck (rands i) createDeck)).map List.length =
      List.replicate k 52 := by
    rw [List.map_map, List.eq_replicate_iff]
    refine ⟨by simp, ?_⟩
    intro b hb
    simp only [List.mem_map, Function.comp] at hb
    obtain ⟨i, _, rfl⟩ := hb
    rw [(shuffleDeck_perm (rands i) createDeck).length_eq, createDeck_length]
  refine ⟨?_, (List.range k).map (fun i => shuffleDeck (rands i) createDeck),
    by simp, ?_, hcards⟩
  · rw [hcards, List.length_flatten, hlens, List.sum_const_nat]
    omega
  · intro b hb
    simp only [List.mem_map] at hb
    obtain ⟨i, _, rfl⟩ := hb
    exact shuffleDeck_perm (rands i) createDeck

/-- Witness for C5, at one deck and the constant-zero random oracle. -/
theorem c5_createShoe_blocks_witness :
    ((mkShoe 1).createShoe (fun _ _ => 0)).cards.length = 52 * 1 ∧
    ∃ blocks : List (List Card), blocks.length = 1 ∧
      (∀ b ∈ blocks, b.Perm createDeck) ∧
      ((mkShoe 1).createShoe (fun _ _ => 0)).cards = blocks.flatten :=
  c5_createShoe_blocks (fun _ _ => 0) 1 (3/4) (by decide)

/-- C6: `pastCutoff()` returns true exactly when
`floor((cards.length / (numDecks*52)) * 100) < cutoff`, the 0–100 percent
value compared against the fractional cutoff; with the default cutoff 0.75
this holds exactly when `100 * cards.length < 52 * numDecks`, i.e. when
fewer than 0.75 % of the cards remain.  (`pastCutoff` is a pure function of
the shoe: it modifies nothing.) -/
theorem c6_pastCutoff_formula (shoe : Shoe) (hk : 0 < shoe.numDecks) :
    (shoe.pastCutoff = true ↔
      ((⌊(shoe.cards.length : ℚ) / ((shoe.numDecks : ℚ) * 52) * 100⌋ : ℚ) <
        shoe.cutoff)) ∧
    (shoe.cutoff = 3 / 4 →
      (shoe.pastCutoff = true ↔
        100 * shoe.cards.length < 52 * shoe.numDecks)) := by
  have hform : shoe.pastCutoff = true ↔
      ((⌊(shoe.cards.length : ℚ) / ((shoe.numDecks : ℚ) * 52) * 100⌋ : ℚ) <
        shoe.cutoff) := by
    rw [Shoe.pastCutoff]
    simp
  refine ⟨hform, fun hcut => ?_⟩
  rw [hform, hcut]
  have hkq : (0 : ℚ) < (shoe.numDecks : ℚ) := by exact_mod_cast hk
  have hpos : (0 : ℚ) < (shoe.numDecks : ℚ) * 52 := by linarith
  set x : ℚ := (shoe.cards.length : ℚ) / ((shoe.numDecks : ℚ) * 52) * 100
    with hx
  have hb : ⌊x⌋ < 1 ↔ x < 1 := by
    constructor
    · intro h
      have := Int.floor_lt.mp h
      simpa using this
    · intro h
      apply Int.floor_lt.mpr
      simpa using h
  have hc : x < 1 ↔ 100 * shoe.cards.length < 52 * shoe.numDecks := by
    rw [hx, div_mul_eq_mul_div, div_lt_one hpos]
    constructor
    · intro h
      have h2 : ((100 * shoe.cards.length : Nat) : ℚ) <
          ((52 * shoe.numDecks : Nat) : ℚ) := by push_cast; linarith
      exact_mod_cast h2
    · intro h
      have h2 : ((100 * shoe.cards.length : Nat) : ℚ) <
          ((52 * shoe.numDecks : Nat) : ℚ) := by exact_mod_cast h
      push_cast at h2
      linarith
  constructor
  · intro h
    apply hc.mp
    apply hb.mp
    by_contra h2
    push_neg at h2
    have h3 : (1 : ℚ) ≤ (⌊x⌋ : ℚ) := by exact_mod_cast h2
    linarith
  · intro h
    have h2 : ⌊x⌋ < 1 := hb.mpr (hc.mpr h)
    have h3 : (⌊x⌋ : ℚ) ≤ 0 := by
      have : ⌊x⌋ ≤ 0 := by omega
      exact_mod_cast this
    linarith

/-- Witness for C6: a full single-deck shoe is not past the cutoff. -/
theorem c6_pastCutoff_formula_witness :
    (({ cards := createDeck, numDecks := 1, cutoff := 3/4 } : Shoe).pastCutoff
        = true ↔
      100 * ({ cards := createDeck, numDecks := 1, cutoff := 3/4 } : Shoe).cards.length <
        52 * ({ cards := createDeck, numDecks := 1, cutoff := 3/4 } : Shoe).numDecks) ∧
    ({ cards := createDeck, numDecks := 1, cutoff := 3/4 } : Shoe).pastCutoff
        = false := by
  have h := (c6_pastCutoff_formula
    { cards := createDeck, numDecks := 1, cutoff := 3/4 } (by decide)).2 rfl
  refine ⟨h, ?_⟩
  have h2 : ¬ (100 * ({ cards := createDeck, numDecks := 1, cutoff := 3/4 } : Shoe).cards.length <
      52 * ({ cards := createDeck, numDecks := 1, cutoff := 3/4 } : Shoe).numDecks) := by
    decide
  rcases hval : ({ cards := createDeck, numDecks := 1, cutoff := 3/4 } : Shoe).pastCutoff with _ | _
  · rfl
  · exact absurd (h.mp hval) h2

/-- C7: for every sequence of random index choices, `shuffleDeck()` leaves
the deck's card sequence a permutation of its prior contents — the multiset
of cards is preserved, none added, lost, or duplicated. -/
theorem c7_shuffle_permutes (rand : Nat → Nat) (cs : List Card) :
    (shuffleDeck rand cs).Perm cs :=
  shuffleDeck_perm rand cs

/-- C8: the evaluators are total on the empty hand: `evalHand []` is 0 with
an ace count of 0, `scoreHand []` is 0, `isBust []` is false, and
`belowHard17 []` is true. -/
theorem c8_empty_hand :
    evalHand [] = 0 ∧ numAces [] = 0 ∧ scoreHand [] = 0 ∧
    isBust [] = false ∧ belowHard17 [] = true := by
  refine ⟨rfl, rfl, rfl, rfl, rfl⟩

/-- C9: none of the evaluators mutates the hand passed to it — each
state-passing view returns the hand exactly as given — and `scoreHand`
returns `evalHand`'s result verbatim; the state-passing views also agree
with the pure evaluators. -/
theorem c9_evaluators_pure (hand : List Card) :
    (evalHandSt hand).2 = hand ∧ (scoreHandSt hand).2 = hand ∧
    (isBustSt hand).2 = hand ∧ (belowHard17St hand).2 = hand ∧
    (evalHandSt hand).1 = evalHand hand ∧
    scoreHand hand = evalHand hand ∧
    (scoreHandSt hand).1 = evalHand hand ∧
    (isBustSt hand).1 = isBust hand ∧
    (belowHard17St hand).1 = belowHard17 hand :=
  ⟨rfl, rfl, rfl, rfl, rfl, rfl, rfl, rfl, rfl⟩

/-- C10: because the built ace's stored dual value `[1, 10]` sums to 11,
`evalHand` on every hand of canonically built cards returns the standard
blackjack value: the largest total not exceeding 21 obtainable by counting
each ace as 1 or 11, or the smallest such total when every choice exceeds
21. -/
theorem c10_blackjack_value (hand : List Card)
    (h : ∀ c ∈ hand, c ∈ createDeck) :
    evalHand hand = blackjackValue hand :=
  evalHand_eq_blackjackValue (fun c hc => createDeck_canonical c (h c hc))

/-- Witness for C10: ace plus king scores 21, matching the spec-side
blackjack value. -/
theorem c10_blackjack_value_witness :
    evalHand [mkCard "clubs" "ace" (CardValue.arr [1, 10]),
      mkCard "clubs" "king" (CardValue.num 10)] =
      blackjackValue [mkCard "clubs" "ace" (CardValue.arr [1, 10]),
        mkCard "clubs" "king" (CardValue.num 10)] ∧
    evalHand [mkCard "clubs" "ace" (CardValue.arr [1, 10]),
      mkCard "clubs" "king" (CardValue.num 10)] = 21 :=
  ⟨c10_blackjack_value _ (by decide), by decide⟩

end Blackjack
